import Mathlib

/-!
# Verification of the MODOI distributed geodesic-shortening core

This file gives a shallow embedding, in Lean 4, of the core algorithms of the
MODOI repository (coordinator dispatch loop, worker main loop, local geodesic
solver pieces, metric-sharding client, and evaluator server), together with
theorems settling the specification claims about them.

Conventions of the embedding:
* machine floats are modelled as exact reals (`ℝ`); wall-clock times as `ℚ`;
* Python lists become `List`, NumPy vectors become `Fin D → ℝ`,
  NumPy matrices become `Matrix`;
* Python dictionaries used as records become structures, and the coordinator's
  `client_monitor` dictionary becomes an association list whose iteration
  order is its list order (a determinization of dict iteration order);
* code that can raise an uncaught exception (`KeyError`, `NameError`) is
  embedded as an `Option`-valued function, `none` modelling the crash;
* network sends are modelled by returning the list of messages sent.

The file is organised as: definitions (one section per source module), then
helper lemmas and the claim theorems.
-/

/-- Embeds `Communication_Codes.comm_code`: maps the human-readable label of a
communication code to its numeric value, `none` for an unknown label. -/
def comm_code : String → Option ℕ
  | "CLIENT_HAS_NO_TASK" => some 0
  | "CLIENT_HAS_MIDPOINT_DATA" => some 1
  | "SERVER_GIVES_NEW_TASK" => some 2
  | "SERVER_REQUEST_CALLBACK" => some 3
  | "CLIENT_PROVIDES_POINT" => some 4
  | "SERVER_PROVIDES_VALUES" => some 5
  | "CLIENT_ASKS_FOR_VALUES" => some 6
  | "CLIENT_HEARTBEAT" => some 7
  | "KILL" => some 8
  | "CLIENT_FIRST_CONTACT" => some 9
  | _ => none

/-- The NumPy inner product `np.inner(x, y)` on vectors of dimension `D`. -/
def dotR {D : ℕ} (x y : Fin D → ℝ) : ℝ := ∑ i, x i * y i

namespace MetricValues

/-- Embeds the dispatch loop of `MetricValues.get_metric` (the index bookkeeping
of its first `for address in ...` loop): one recursive step per metric server,
carrying the loop variable `address`, the running `current_point` and the
`extra_jobs` flag (initially 1, set to 0 once `address >= remainder_tasks`).
The list of original indices sent to a server is the contiguous block starting
at `current_point` of size `tasks_per_server + extra_jobs`.  The fuel argument
counts the remaining servers. -/
def shardGo (tasks_per_server remainder_tasks : ℕ) :
    ℕ → ℕ → ℕ → ℕ → List (List ℕ)
  | 0, _, _, _ => []
  | fuel + 1, address, current_point, extra_jobs =>
      let e := if remainder_tasks ≤ address then 0 else extra_jobs
      List.range' current_point (tasks_per_server + e) ::
        shardGo tasks_per_server remainder_tasks fuel (address + 1)
          (current_point + tasks_per_server + e) e

/-- The per-server index blocks produced by `get_metric` for a curve of `n`
points (`n = number_of_inner_points + 2`) and `K` metric servers:
`tasks_per_server = floor(n / K)` and
`remainder_tasks = n - tasks_per_server * K`, exactly as in the source. -/
def get_metric_shards (n K : ℕ) : List (List ℕ) :=
  shardGo (n / K) (n - n / K * K) K 0 0 1

/-- Embeds the `metric` buffer initialisation `metric = [[]] * (n)` of
`get_metric`, with `none` standing for a slot that has not been overwritten. -/
def metricInit (α : Type*) (n : ℕ) : List (Option α) := List.replicate n none

/-- Embeds the collection inner loop of `get_metric`:
`for value in response['values']: metric[value[1]] = value[0]`. -/
def applyValues {α : Type*} (metric : List (Option α)) (values : List (α × ℕ)) :
    List (Option α) :=
  values.foldl (fun m v => m.set v.2 (some v.1)) metric

/-- Embeds the collection phase of `get_metric`: fold the per-server responses
into the `metric` buffer, in server order. -/
def get_metric_collect {α : Type*} (n : ℕ)
    (responses : List (List (α × ℕ))) : List (Option α) :=
  responses.foldl applyValues (metricInit α n)

end MetricValues

namespace Geometric

/-- Embeds `Geometric.norm`: `math.sqrt(np.inner(x, matrix.dot(x)))`, the
mass-weighted norm used by the length functional. -/
noncomputable def norm {D : ℕ} (x : Fin D → ℝ)
    (matrix : Matrix (Fin D) (Fin D) ℝ) : ℝ :=
  Real.sqrt (dotR x (matrix.mulVec x))

/-- Embeds `Geometric.Length`: the accumulator starts with the first segment's
trapezoidal term `(a[1][0]+a[0][0]) * norm(p1-p0)` and the
`for i in xrange(1, len(points)-1)` loop adds the remaining segments; the
result is halved.  Out-of-range accesses use a zero default (the Python code
would raise; the claim's length hypothesis keeps all accesses in range).
`number_of_inner_nodes` is a parameter of the source function that its body
never reads. -/
noncomputable def Length {D : ℕ} (curve : List (Fin D → ℝ))
    (metric : List (ℝ × (Fin D → ℝ))) (number_of_inner_nodes : ℕ)
    (mass_matrix : Matrix (Fin D) (Fin D) ℝ) : ℝ :=
  0.5 * ((List.range' 1 (curve.length - 2)).foldl
    (fun l i => l + ((metric.getD (i + 1) (0, 0)).1 + (metric.getD i (0, 0)).1) *
      norm (curve.getD (i + 1) 0 - curve.getD i 0) mass_matrix)
    (((metric.getD 1 (0, 0)).1 + (metric.getD 0 (0, 0)).1) *
      norm (curve.getD 1 0 - curve.getD 0 0) mass_matrix))

end Geometric

namespace LinearAlgebra

/-- The standard basis vector used by `orthonormal_tangent_basis`
(`e = np.zeros(dimension); e[i] = 1`). -/
def stdBasis (D : ℕ) (i : ℕ) : Fin D → ℝ := fun k => if k.val = i then 1 else 0

/-- First index carrying a nonzero entry of `t` among a list of candidate
indices; embeds `np.nonzero(mx)[0][0]` (`none` when there is none, where the
source would raise `IndexError`). -/
noncomputable def firstNonzeroAux {D : ℕ} (t : Fin D → ℝ) :
    List (Fin D) → Option (Fin D)
  | [] => none
  | i :: rest => if t i ≠ 0 then some i else firstNonzeroAux t rest

/-- The index `j` of the first nonzero entry of the tangent vector. -/
noncomputable def firstNonzero {D : ℕ} (t : Fin D → ℝ) : Option (Fin D) :=
  firstNonzeroAux t (List.finRange D)

/-- The stacked rows of `orthonormal_tangent_basis` before transposition:
`mx = tangent`, then for `i in xrange(1, dimension)` with `j != i` append
`e_i`, where `j` indexes the tangent's first nonzero entry.  After
`mx.transpose()` these rows are exactly the columns fed to Gram–Schmidt, so we
keep them directly as the column list.  A zero tangent (where the source
raises) is embedded as the empty list. -/
noncomputable def orthonormal_tangent_basis_columns {D : ℕ}
    (tangent : Fin D → ℝ) : List (Fin D → ℝ) :=
  match firstNonzero tangent with
  | none => []
  | some j =>
      tangent ::
        (((List.range D).drop 1).filter (fun i => i ≠ j.val)).map (stdBasis D)

/-- One step of the Gram–Schmidt loop `for j in range(n)` of
`orthonormal_tangent_basis`: subtract from the current column its projections
on the already-produced columns (`r = np.dot(Q[:,i], mx[:,j])`, classical
Gram–Schmidt against the original column), then divide by the Euclidean norm
`np.linalg.norm(v)`. -/
noncomputable def gsStep {D : ℕ} (acc : List (Fin D → ℝ)) (c : Fin D → ℝ) :
    Fin D → ℝ :=
  let v := c - (acc.map (fun q => dotR q c • q)).sum
  (Real.sqrt (dotR v v))⁻¹ • v

/-- The Gram–Schmidt loop, accumulating the produced columns `Q[:,j]`. -/
noncomputable def gsGo {D : ℕ} (acc : List (Fin D → ℝ)) :
    List (Fin D → ℝ) → List (Fin D → ℝ)
  | [] => acc
  | c :: rest => gsGo (acc ++ [gsStep acc c]) rest

/-- Embeds `LinearAlgebra.orthonormal_tangent_basis`, as the list of columns of
the returned matrix `Q`. -/
noncomputable def orthonormal_tangent_basis {D : ℕ} (tangent : Fin D → ℝ) :
    List (Fin D → ℝ) :=
  gsGo [] (orthonormal_tangent_basis_columns tangent)

/-- The first `j` Gram–Schmidt columns, by index (proof-side characterization
of `gsGo`'s accumulator). -/
noncomputable def gsPrefix {D : ℕ} (cols : List (Fin D → ℝ)) :
    ℕ → List (Fin D → ℝ)
  | 0 => []
  | j + 1 => gsPrefix cols j ++ [gsStep (gsPrefix cols j) (cols.getD j 0)]

/-- The `j`-th Gram–Schmidt column, by index (proof-side characterization). -/
noncomputable def gsQ {D : ℕ} (cols : List (Fin D → ℝ)) (j : ℕ) : Fin D → ℝ :=
  (gsPrefix cols (j + 1)).getD j 0

/-- Reads a list of column vectors as a `D × n` matrix (column `c` of the
matrix is entry `c` of the list). -/
def colsMatrix (D n : ℕ) (cols : List (Fin D → ℝ)) : Matrix (Fin D) (Fin n) ℝ :=
  Matrix.of fun r c => (cols.getD c.val 0) r

/-- The identification of plain vectors with `EuclideanSpace` (proof-side
bridge into Mathlib's inner-product-space development). -/
noncomputable def toE {D : ℕ} : (Fin D → ℝ) ≃ₗ[ℝ] EuclideanSpace ℝ (Fin D) :=
  (WithLp.linearEquiv 2 ℝ (Fin D → ℝ)).symm

/-- Embeds `LinearAlgebra.shifts_to_curve`.  The first loop materializes the
uniform interpolation `points[i] = start + i * (end - start)/(L+1)`; the second
adds, to each interior point `points[i+1]`, the rotated shift
`B · hstack(0, shift_points[i*codim : (i+1)*codim])`.  `tangent_direction` is a
parameter of the source function that its body never reads. -/
noncomputable def shifts_to_curve {D codimension : ℕ}
    (start_point end_point : Fin D → ℝ) (shift_points : List ℝ)
    (number_of_inner_points : ℕ)
    (basis_rotation_matrix : Matrix (Fin D) (Fin (codimension + 1)) ℝ)
    (tangent_direction : Fin D → ℝ) : List (Fin D → ℝ) :=
  let tangent : Fin D → ℝ :=
    fun k => (end_point k - start_point k) / (number_of_inner_points + 1)
  let points := (List.range (number_of_inner_points + 2)).map
    (fun (i : ℕ) => fun k => start_point k + (i : ℝ) * tangent k)
  (List.range (shift_points.length / codimension)).foldl
    (fun pts i =>
      let unrotated : Fin (codimension + 1) → ℝ := fun k =>
        if k.val = 0 then 0
        else ((shift_points.drop (i * codimension)).take codimension).getD
          (k.val - 1) 0
      let shift := basis_rotation_matrix.mulVec unrotated
      List.modify (fun p => p + shift) (i + 1) pts)
    points

end LinearAlgebra

namespace CustomBFGS

/-- Embeds the return statement of `CustomBFGS.find_geodesic_midpoint`
(`return curve[(number_of_inner_points + 1) / 2]`): Python 2 `/` on ints is
floor division, which is `Nat` division here. -/
def find_geodesic_midpoint_return {V : Type*} (curve : List V)
    (number_of_inner_points : ℕ) (d : V) : V :=
  curve.getD ((number_of_inner_points + 1) / 2) d

/-- Modelled from the spec: the index `⌈(L+1)/2⌉` that the specification
claims for the returned middle interior point.  This is the comparator for the
refinement claim C3; the source computes `(L+1)/2` with floor division. -/
def midpoint_index_spec (L : ℕ) : ℕ := (L + 1 + 1) / 2

end CustomBFGS

namespace SimulationClient

/-- A worker→coordinator message (the `client_response` dictionaries of
`SimulationClient.start_client`). -/
inductive ClientMsg (V : Type) where
  | first_contact (client_name : String)
  | midpoint_data (client_name : String) (node_number : ℕ)
      (new_node_position : V)
  | no_task (client_name : String)
  deriving DecidableEq

/-- A coordinator→worker response (`server_response` dictionary); fields other
than `status_code` are only meaningful for `SERVER_GIVES_NEW_TASK`. -/
structure ServerResponse (V : Type) where
  status_code : ℕ
  node_number : ℕ
  left_end_point : V
  right_end_point : V
  deriving DecidableEq

/-- Embeds `MetricValues.shutdown_metric`: a `KILL` status code is sent to
every evaluator address in order (a per-address socket error is caught and
only logged, so every address is messaged). -/
def shutdown_metric {A : Type} (metric_server_addresses : List A) :
    List (A × Option ℕ) :=
  metric_server_addresses.map (fun ad => (ad, comm_code "KILL"))

/-- Result of one iteration of the worker's main loop: the evaluator-directed
KILL messages sent during the iteration, whether the loop terminated, and the
message sent to the coordinator (if any). -/
structure StepResult (A V : Type) where
  kills : List (A × Option ℕ)
  terminated : Bool
  sent : Option (ClientMsg V)
  deriving DecidableEq

/-- Embeds one iteration of the `while connection_made` loop of
`SimulationClient.start_client`.  `solve_result` abstracts the value of
`find_geodesic_midpoint` (`none` exactly when some evaluator was unreachable),
`conn_ok` abstracts whether the send/recv to the coordinator raises
`socket.error`/`EOFError`.  On a task response with `solve_result = none` the
source logs and `break`s (no messages are sent); on a coordinator connection
failure it calls `shutdown_metric` and `break`s. -/
def start_client_step {A V : Type} (metric_servers : List A)
    (client_id : String) (prev_response : ClientMsg V)
    (server_response : ServerResponse V) (solve_result : Option V)
    (conn_ok : Bool) : StepResult A V :=
  let send : ClientMsg V → StepResult A V := fun m =>
    if conn_ok then ⟨[], false, some m⟩
    else ⟨shutdown_metric metric_servers, true, none⟩
  if some server_response.status_code = comm_code "SERVER_GIVES_NEW_TASK" then
    match solve_result with
    | none => ⟨[], true, none⟩
    | some r =>
        send (ClientMsg.midpoint_data client_id server_response.node_number r)
  else if some server_response.status_code = comm_code "SERVER_REQUEST_CALLBACK"
  then send (ClientMsg.no_task client_id)
  else send prev_response

end SimulationClient

namespace SimulationPotential

/-- A client→evaluator request (`client_response` dictionary of
`run_potential_server`); `points` is only meaningful for
`CLIENT_PROVIDES_POINT`. -/
structure PRequest (α : Type) where
  status_code : ℕ
  points : List (α × ℕ)

/-- Embeds the per-point computation of the POINTS branch of
`run_potential_server`:
`[sqrt(max(E - U(p), small_number)), forces(p)]`, with the external
potential-energy calculator abstracted as `U` and `forces`. -/
noncomputable def metric_sample {D : ℕ} (energy small_number : ℝ)
    (U : (Fin D → ℝ) → ℝ) (forces : (Fin D → ℝ) → (Fin D → ℝ))
    (p : Fin D → ℝ) : ℝ × (Fin D → ℝ) :=
  (Real.sqrt (max (energy - U p) small_number), forces p)

/-- Embeds one iteration of the accept loop of
`SimulationPotential.run_potential_server`.  The state is the
`server_response` variable: `none` before the first POINTS batch (a FETCH at
that point dereferences a never-assigned variable, modelled by a `none`
result).  Returns `some (new buffer, values sent, loop exited)`.  The FETCH
branch sends the buffered values and leaves `server_response` unchanged — only
the local `values` list is re-bound at the top of the next iteration. -/
def run_potential_step {α β : Type} (eval : α → β)
    (buffer : Option (List (β × ℕ))) (req : PRequest α) :
    Option (Option (List (β × ℕ)) × Option (List (β × ℕ)) × Bool) :=
  if some req.status_code = comm_code "CLIENT_PROVIDES_POINT" then
    some (some (req.points.map fun p => (eval p.1, p.2)), none, false)
  else if some req.status_code = comm_code "CLIENT_ASKS_FOR_VALUES" then
    match buffer with
    | none => none
    | some vs => some (some vs, some vs, false)
  else if some req.status_code = comm_code "KILL" then
    some (buffer, none, true)
  else
    some (buffer, none, false)

end SimulationPotential

namespace SimulationServer

/-- The coordinator-side record for one worker in `client_monitor`: `None`
(registered, or presumed dead) or the pair `[dispatch_time, node_number]`. -/
abbrev MonitorEntry := Option (ℚ × ℕ)

/-- The `client_monitor` dictionary, as an association list whose iteration
order is the list order. -/
abbrev Monitor := List (String × MonitorEntry)

/-- Python dictionary read `client_monitor[name]`: `none` models the
`KeyError` on an absent key. -/
def mlookup : Monitor → String → Option MonitorEntry
  | [], _ => none
  | (k, v) :: rest, name => if k = name then some v else mlookup rest name

/-- Python dictionary assignment `client_monitor[name] = v`: update the
existing binding or append a new one. -/
def mset : Monitor → String → MonitorEntry → Monitor
  | [], name, v => [(name, v)]
  | (k, w) :: rest, name, v =>
      if k = name then (k, v) :: rest else (k, w) :: mset rest name v

/-- Interface to the `Curve` object consumed by `run_simulation`.  The `Curve`
class itself is not among the analysed sources; the dispatch-loop claims do
not depend on its behaviour, so its operations are abstract parameters. -/
structure CurveOps (σ V : Type) where
  set_node_position : σ → ℕ → V → σ
  all_nodes_moved : σ → Bool
  movement : σ → ℚ
  set_node_movable : σ → σ
  next_movable_node : σ → Option ℕ
  get_point : σ → ℕ → V

/-- A worker→coordinator request (`client_response` dictionary); `node_number`
and `new_node_position` are only meaningful for `CLIENT_HAS_MIDPOINT_DATA`. -/
structure SRequest (V : Type) where
  status_code : ℕ
  client_name : String
  node_number : ℕ
  new_node_position : V

/-- A coordinator→worker reply (`server_response` dictionary). -/
inductive SReply (V : Type) where
  | new_task (node_number : ℕ) (left_end_point right_end_point : V)
  | request_callback
  deriving DecidableEq

/-- Embeds the timeout scan of `run_simulation` (the
`for client_info in client_monitor` loop): `next` threads the
`next_node_number` variable, which each timed-out entry overwrites with its
own node number before its record is set to `None`. -/
def scanMonitor (now timeout : ℚ) : Monitor → Option ℕ → Monitor × Option ℕ
  | [], next => ([], next)
  | (k, entry) :: rest, next =>
      match entry with
      | some (t, node) =>
          if timeout < now - t then
            let r := scanMonitor now timeout rest (some node)
            ((k, none) :: r.1, r.2)
          else
            let r := scanMonitor now timeout rest next
            ((k, some (t, node)) :: r.1, r.2)
      | none =>
          let r := scanMonitor now timeout rest next
          ((k, none) :: r.1, r.2)

/-- The nodes of the workers that the scan times out, in iteration order
(proof-side characterization of `scanMonitor`). -/
def timedOutNodes (now timeout : ℚ) (m : Monitor) : List ℕ :=
  m.filterMap (fun kv => match kv.2 with
    | some (t, node) => if timeout < now - t then some node else none
    | none => none)

/-- The dispatch tail of `run_simulation`'s loop body (everything after the
midpoint/first-contact handling): sweep-completion check, timeout scan, node
selection and reply.  Returns `(monitor, curve, reply, terminated)`; a `none`
reply with `terminated = true` is the `break` before any send. -/
def run_simulation_dispatch {σ V : Type} (ops : CurveOps σ V)
    (tolerance timeout : ℚ) (m1 : Monitor) (c1 : σ) (req : SRequest V)
    (now : ℚ) : Monitor × σ × Option (SReply V) × Bool :=
  if ops.all_nodes_moved c1 ∧ ops.movement c1 < tolerance then
    (m1, c1, none, true)
  else
    let c2 := if ops.all_nodes_moved c1 then ops.set_node_movable c1 else c1
    let scanned := scanMonitor now timeout m1 none
    let next := match scanned.2 with
      | some n => some n
      | none => ops.next_movable_node c2
    match next with
    | some n =>
        (mset scanned.1 req.client_name (some (now, n)), c2,
          some (SReply.new_task n (ops.get_point c2 (n - 1))
            (ops.get_point c2 (n + 1))), false)
    | none => (scanned.1, c2, some SReply.request_callback, false)

/-- Embeds one iteration of the accept loop of
`SimulationServer.run_simulation` (one inbound request).  `now` stands for
`time.time()`.  The result is `none` exactly when the body raises an uncaught
`KeyError` (a midpoint result whose `client_name` was never registered);
otherwise `some (monitor, curve, reply, terminated)`, where `reply = none`
means the loop `break`s without answering the current caller. -/
def run_simulation_step {σ V : Type} (ops : CurveOps σ V)
    (tolerance timeout : ℚ) (monitor : Monitor) (curve : σ)
    (req : SRequest V) (now : ℚ) :
    Option (Monitor × σ × Option (SReply V) × Bool) :=
  let step1 : Option (Monitor × σ) :=
    if some req.status_code = comm_code "CLIENT_HAS_MIDPOINT_DATA" then
      match mlookup monitor req.client_name with
      | none => none
      | some (some _) =>
          some (monitor,
            ops.set_node_position curve req.node_number req.new_node_position)
      | some none => some (monitor, curve)
    else if some req.status_code = comm_code "CLIENT_FIRST_CONTACT" then
      some (mset monitor req.client_name none, curve)
    else
      some (monitor, curve)
  match step1 with
  | none => none
  | some (m1, c1) =>
      some (run_simulation_dispatch ops tolerance timeout m1 c1 req now)

/-- A trivial concrete curve state used to evaluate the dispatcher at closed
inputs: every sweep is complete with zero movement and no movable node. -/
def convergedCurveOps : CurveOps Unit ℕ :=
  ⟨fun _ _ _ => (), fun _ => true, fun _ => 0, fun _ => (), fun _ => none,
    fun _ _ => 0⟩

end SimulationServer

/-! ## Helper lemmas -/

namespace MetricValues

theorem shardGo_flatten (t r : ℕ) :
    ∀ (fuel a cur extra : ℕ), r ≤ a + fuel → (a < r → extra = 1) →
      (shardGo t r fuel a cur extra).flatten = List.range' cur (fuel * t + (r - a))
  | 0, a, cur, extra, hra, _ => by
    have : r - a = 0 := by omega
    simp [shardGo, this]
  | fuel + 1, a, cur, extra, hra, hex => by
    by_cases h : r ≤ a
    · have he : (if r ≤ a then 0 else extra) = 0 := if_pos h
      have hrec := shardGo_flatten t r fuel (a + 1) (cur + t + 0) 0
        (by omega) (by omega)
      simp only [shardGo, he, List.flatten_cons, hrec]
      have hlen : fuel * t + (r - (a + 1)) = fuel * t := by omega
      have happ := List.range'_append cur (t + 0) (fuel * t) 1
      simp only [one_mul] at happ
      rw [hlen]
      rw [show cur + t + 0 = cur + (t + 0) by omega] at hrec ⊢
      rw [happ]
      congr 1
      rw [add_one_mul]
      omega
    · have he : (if r ≤ a then 0 else extra) = extra := if_neg h
      have hextra : extra = 1 := hex (by omega)
      have hrec := shardGo_flatten t r fuel (a + 1) (cur + t + extra) extra
        (by omega) (fun _ => hextra)
      simp only [shardGo, he, List.flatten_cons, hrec]
      have happ := List.range'_append cur (t + extra) (fuel * t + (r - (a + 1))) 1
      simp only [one_mul] at happ
      rw [show cur + t + extra = cur + (t + extra) by omega]
      rw [happ]
      congr 1
      rw [add_one_mul]
      omega

theorem get_metric_shards_flatten (n K : ℕ) (hK : 1 ≤ K) :
    (get_metric_shards n K).flatten = List.range n := by
  have hdm := Nat.div_add_mod n K
  have hmod : n % K < K := Nat.mod_lt n (by omega)
  have hr : n - n / K * K = n % K := by rw [Nat.mul_comm]; omega
  rw [get_metric_shards,
    shardGo_flatten (n / K) (n - n / K * K) K 0 0 1 (by omega) (fun _ => rfl),
    List.range_eq_range']
  congr 1
  rw [Nat.mul_comm K (n / K)] at hdm ⊢
  omega

theorem shardGo_count (t r : ℕ) :
    ∀ (fuel a cur extra : ℕ), (shardGo t r fuel a cur extra).length = fuel
  | 0, _, _, _ => rfl
  | fuel + 1, a, cur, extra => by
    simp [shardGo, shardGo_count t r fuel]

theorem shardGo_block_sizes (t r : ℕ) :
    ∀ (fuel a cur extra : ℕ), extra ≤ 1 →
      ∀ l ∈ shardGo t r fuel a cur extra, l.length = t ∨ l.length = t + 1
  | 0, _, _, _, _, l, hl => by simp [shardGo] at hl
  | fuel + 1, a, cur, extra, hextra, l, hl => by
    simp only [shardGo, List.mem_cons] at hl
    rcases hl with rfl | hl
    · rw [List.length_range']
      by_cases h : r ≤ a
      · simp [h]
      · simp [h]; omega
    · exact shardGo_block_sizes t r fuel (a + 1) _ _
        (by by_cases h : r ≤ a
            · simp [h]
            · simp [h]; omega) l hl

theorem applyValues_append {α : Type*} (m : List (Option α))
    (vs₁ vs₂ : List (α × ℕ)) :
    applyValues m (vs₁ ++ vs₂) = applyValues (applyValues m vs₁) vs₂ :=
  List.foldl_append ..

theorem get_metric_collect_eq_flatten {α : Type*} (n : ℕ)
    (responses : List (List (α × ℕ))) :
    get_metric_collect n responses = applyValues (metricInit α n) responses.flatten := by
  rw [get_metric_collect]
  generalize metricInit α n = m
  induction responses generalizing m with
  | nil => simp [applyValues]
  | cons hd tl ih => simp [List.foldl_cons, ih, applyValues_append]

theorem applyValues_map_getElem? {α : Type*} (f : ℕ → α) :
    ∀ (idxs : List ℕ) (m : List (Option α)) (j : ℕ),
      (applyValues m (idxs.map fun i => (f i, i)))[j]? =
        if j ∈ idxs ∧ j < m.length then some (some (f j)) else m[j]?
  | [], m, j => by simp [applyValues]
  | a :: rest, m, j => by
    have hstep : applyValues m ((a :: rest).map fun i => (f i, i)) =
        applyValues (m.set a (some (f a))) (rest.map fun i => (f i, i)) := by
      simp [applyValues]
    rw [hstep, applyValues_map_getElem? f rest]
    simp only [List.length_set, List.mem_cons, List.getElem?_set]
    by_cases hja : j = a
    · subst hja
      by_cases hjm : j < m.length
      · by_cases hjr : j ∈ rest
        · simp [hjr, hjm]
        · simp [hjr, hjm]
      · by_cases hjr : j ∈ rest
        · simp only [hjr, hjm, and_false, if_false, if_true]
          rw [List.getElem?_eq_none (by omega)]
        · simp only [hjr, hjm, and_false, if_false, if_true]
          rw [List.getElem?_eq_none (by omega)]
    · have hne : (a = j) = False := by simp [Ne.symm hja]
      simp only [hne, if_false]
      by_cases hjr : j ∈ rest
      · simp [hjr, hja]
      · simp [hjr, hja]

theorem applyValues_range {α : Type*} (f : ℕ → α) (n : ℕ) :
    applyValues (metricInit α n) ((List.range n).map fun i => (f i, i)) =
      (List.range n).map fun i => some (f i) := by
  apply List.ext_getElem?
  intro j
  rw [applyValues_map_getElem?]
  simp only [metricInit, List.length_replicate, List.mem_range]
  by_cases hj : j < n
  · simp [hj]
  · rw [if_neg (by omega)]
    rw [List.getElem?_eq_none (by simpa using (by omega : n ≤ j))]
    rw [List.getElem?_eq_none (by simpa using (by omega : n ≤ j))]

end MetricValues

namespace Geometric

theorem foldl_add_map_sum {β : Type*} (g : β → ℝ) :
    ∀ (l : List β) (init : ℝ),
      l.foldl (fun acc i => acc + g i) init = init + (l.map g).sum
  | [], init => by simp
  | b :: l, init => by
    rw [List.foldl_cons, foldl_add_map_sum g l (init + g b)]
    simp [add_assoc]

theorem sum_map_range'_one (g : ℕ → ℝ) :
    ∀ n : ℕ, ((List.range' 1 n).map g).sum = ∑ k ∈ Finset.range n, g (k + 1)
  | 0 => by simp
  | n + 1 => by
    rw [List.range'_concat, List.map_append, List.sum_append,
      sum_map_range'_one g n, Finset.sum_range_succ]
    simp [add_comm 1 n]

end Geometric

namespace LinearAlgebra

theorem getD_replicate_self {α : Type*} (a : α) (n i : ℕ) :
    (List.replicate n a).getD i a = a := by
  rcases Nat.lt_or_ge i n with h | h
  · rw [List.getD_eq_getElem?_getD, List.getElem?_replicate, if_pos h]
    rfl
  · rw [List.getD_eq_getElem?_getD, List.getElem?_replicate, if_neg (by omega)]
    rfl

theorem modify_id_of {α : Type*} (f : α → α) (hf : ∀ x, f x = x) :
    ∀ (l : List α) (i : ℕ), List.modify f i l = l := by
  intro l
  induction l with
  | nil => intro i; simp [List.modify_nil]
  | cons a t ih =>
    intro i
    cases i with
    | zero => simp [List.modify_zero_cons, hf]
    | succ j => simp [List.modify_succ_cons, ih]

theorem foldl_const {α β : Type*} (g : α → β → α)
    (h : ∀ acc x, g acc x = acc) :
    ∀ (l : List β) (init : α), List.foldl g init l = init := by
  intro l
  induction l with
  | nil => intro init; rfl
  | cons b t ih => intro init; rw [List.foldl_cons, h]; exact ih init

end LinearAlgebra

/-! ## Claim theorems -/

/-- C6: for a local curve of `L+2` points and `K ≥ 1` evaluators, `get_metric`
partitions the indices `0..L+1` into `K` contiguous blocks whose sizes differ
by at most one, and — when each evaluator returns a value for exactly the
indices it was sent — the collection phase reassembles a dense array in which
every index is written exactly once, with no gaps or duplicates. -/
theorem claim_C6_shard_partition_and_reassembly {α : Type} (L K : ℕ)
    (f : ℕ → α) (hK : 1 ≤ K) :
    (MetricValues.get_metric_shards (L + 2) K).flatten = List.range (L + 2)
    ∧ (MetricValues.get_metric_shards (L + 2) K).length = K
    ∧ (∀ l₁ ∈ MetricValues.get_metric_shards (L + 2) K,
        ∀ l₂ ∈ MetricValues.get_metric_shards (L + 2) K,
          l₁.length ≤ l₂.length + 1)
    ∧ MetricValues.get_metric_collect (L + 2)
        ((MetricValues.get_metric_shards (L + 2) K).map fun idxs =>
          idxs.map fun i => (f i, i))
      = (List.range (L + 2)).map fun i => some (f i) := by
  refine ⟨MetricValues.get_metric_shards_flatten _ _ hK, ?_, ?_, ?_⟩
  · exact MetricValues.shardGo_count ..
  · intro l₁ h₁ l₂ h₂
    have s₁ := MetricValues.shardGo_block_sizes _ _ K 0 0 1 (by omega) l₁ h₁
    have s₂ := MetricValues.shardGo_block_sizes _ _ K 0 0 1 (by omega) l₂ h₂
    omega
  · rw [MetricValues.get_metric_collect_eq_flatten, ← List.map_flatten,
      MetricValues.get_metric_shards_flatten _ _ hK,
      MetricValues.applyValues_range]

/-- Witness for C6 at `L = 1`, `K = 2`, `f = id`. -/
theorem claim_C6_witness :
    1 ≤ 2
    ∧ ((MetricValues.get_metric_shards (1 + 2) 2).flatten = List.range (1 + 2)
    ∧ (MetricValues.get_metric_shards (1 + 2) 2).length = 2
    ∧ (∀ l₁ ∈ MetricValues.get_metric_shards (1 + 2) 2,
        ∀ l₂ ∈ MetricValues.get_metric_shards (1 + 2) 2,
          l₁.length ≤ l₂.length + 1)
    ∧ MetricValues.get_metric_collect (1 + 2)
        ((MetricValues.get_metric_shards (1 + 2) 2).map fun idxs =>
          idxs.map fun i => (id i, i))
      = (List.range (1 + 2)).map fun i => some (id i)) :=
  ⟨by omega, claim_C6_shard_partition_and_reassembly 1 2 id (by omega)⟩

/-- C7: the objective computed by `Geometric.Length` on a local curve
`q_0, …, q_{L+1}` with metric samples `a_0, …, a_{L+1}` equals the trapezoidal
discretization `½ Σ_{k=0}^{L} (a_k + a_{k+1}) ‖q_{k+1} − q_k‖_M` of the
Riemannian length functional. -/
theorem claim_C7_length_is_trapezoidal_sum {D : ℕ} (L : ℕ)
    (curve : List (Fin D → ℝ)) (metric : List (ℝ × (Fin D → ℝ)))
    (mass_matrix : Matrix (Fin D) (Fin D) ℝ)
    (hc : curve.length = L + 2) :
    Geometric.Length curve metric L mass_matrix =
      (1 / 2) * ∑ k ∈ Finset.range (L + 1),
        ((metric.getD k (0, 0)).1 + (metric.getD (k + 1) (0, 0)).1) *
          Geometric.norm (curve.getD (k + 1) 0 - curve.getD k 0) mass_matrix := by
  unfold Geometric.Length
  rw [hc, show L + 2 - 2 = L by omega, Geometric.foldl_add_map_sum,
    Geometric.sum_map_range'_one, Finset.sum_range_succ']
  have hterm : ∑ x ∈ Finset.range L,
      ((metric.getD (x + 1) (0, 0)).1 + (metric.getD (x + 1 + 1) (0, 0)).1) *
        Geometric.norm (curve.getD (x + 1 + 1) 0 - curve.getD (x + 1) 0)
          mass_matrix
    = ∑ x ∈ Finset.range L,
      ((metric.getD (x + 1 + 1) (0, 0)).1 + (metric.getD (x + 1) (0, 0)).1) *
        Geometric.norm (curve.getD (x + 1 + 1) 0 - curve.getD (x + 1) 0)
          mass_matrix :=
    Finset.sum_congr rfl (fun x _ => by ring)
  rw [hterm]
  ring

/-- Witness for C7 at `D = 1`, `L = 0`, a two-point curve. -/
theorem claim_C7_witness :
    ([fun _ => (0 : ℝ), fun _ => 1] : List (Fin 1 → ℝ)).length = 0 + 2
    ∧ Geometric.Length [fun _ => (0 : ℝ), fun _ => 1]
        ([(1, 0), (1, 0)] : List (ℝ × (Fin 1 → ℝ))) 0 1 =
      (1 / 2) * ∑ k ∈ Finset.range (0 + 1),
        ((([(1, 0), (1, 0)] : List (ℝ × (Fin 1 → ℝ))).getD k (0, 0)).1 +
          (([(1, 0), (1, 0)] : List (ℝ × (Fin 1 → ℝ))).getD (k + 1) (0, 0)).1) *
          Geometric.norm
            (([fun _ => (0 : ℝ), fun _ => 1] : List (Fin 1 → ℝ)).getD (k + 1) 0 -
              ([fun _ => (0 : ℝ), fun _ => 1] : List (Fin 1 → ℝ)).getD k 0) 1 :=
  ⟨rfl, claim_C7_length_is_trapezoidal_sum 0 _ _ 1 rfl⟩

/-- C3 counterexample: for `L = 2` interior points and the 4-point curve
`[10, 11, 12, 13]`, the solver returns `curve[(2+1)/2] = curve[1] = 11`,
whereas the claimed index `⌈(2+1)/2⌉ = 2` selects `12`. -/
theorem claim_C3_counterexample :
    CustomBFGS.find_geodesic_midpoint_return [10, 11, 12, 13] 2 0 = 11
    ∧ List.getD [10, 11, 12, 13] (CustomBFGS.midpoint_index_spec 2) 0 = 12
    ∧ (11 : ℕ) ≠ 12 := by
  refine ⟨rfl, rfl, ?_⟩
  decide

/-- C3 amended: the returned position is the interior point with index
`⌊(L+1)/2⌋` of the final local curve (an interior index whenever `L ≥ 1`),
which agrees with the claimed `⌈(L+1)/2⌉` exactly when `L` is odd. -/
theorem claim_C3_floor_midpoint_index {V : Type*} (L : ℕ) (curve : List V)
    (d : V) (hL : 1 ≤ L) (_hc : curve.length = L + 2) :
    CustomBFGS.find_geodesic_midpoint_return curve L d =
        curve.getD ((L + 1) / 2) d
    ∧ 1 ≤ (L + 1) / 2 ∧ (L + 1) / 2 ≤ L
    ∧ (L % 2 = 1 → (L + 1) / 2 = CustomBFGS.midpoint_index_spec L) :=
  ⟨rfl, by omega, by omega,
    fun _ => by unfold CustomBFGS.midpoint_index_spec; omega⟩

/-- Witness for the amended C3 at `L = 3`. -/
theorem claim_C3_floor_midpoint_index_witness :
    1 ≤ 3 ∧ ([0, 1, 2, 3, 4] : List ℕ).length = 3 + 2
    ∧ (CustomBFGS.find_geodesic_midpoint_return [0, 1, 2, 3, 4] 3 0 =
          List.getD [0, 1, 2, 3, 4] ((3 + 1) / 2) 0
        ∧ 1 ≤ (3 + 1) / 2 ∧ (3 + 1) / 2 ≤ 3
        ∧ (3 % 2 = 1 → (3 + 1) / 2 = CustomBFGS.midpoint_index_spec 3)) :=
  ⟨by omega, rfl, claim_C3_floor_midpoint_index 3 [0, 1, 2, 3, 4] 0 (by omega) rfl⟩

/-- C8: materializing the local curve from the zero shift vector yields exactly
the uniform linear interpolation between the endpoints:
`q_k = left + k·(right − left)/(L+1)` for every `k` in `0..L+1`. -/
theorem claim_C8_zero_shift_is_uniform_interpolation {D codimension : ℕ}
    (L : ℕ) (start_point end_point : Fin D → ℝ)
    (B : Matrix (Fin D) (Fin (codimension + 1)) ℝ)
    (tangent_direction : Fin D → ℝ)
    (_hne : start_point ≠ end_point) :
    LinearAlgebra.shifts_to_curve start_point end_point
        (List.replicate (L * codimension) 0) L B tangent_direction =
      (List.range (L + 2)).map fun i =>
        start_point + (((i : ℕ) : ℝ) / ((L : ℝ) + 1)) • (end_point - start_point) := by
  unfold LinearAlgebra.shifts_to_curve
  have hzero : ∀ i : ℕ, (fun k : Fin (codimension + 1) =>
      if k.val = 0 then (0 : ℝ)
      else (((List.replicate (L * codimension) (0 : ℝ)).drop
          (i * codimension)).take codimension).getD (k.val - 1) 0) = 0 := by
    intro i
    funext k
    rw [List.drop_replicate, List.take_replicate]
    by_cases hk : k.val = 0
    · simp [hk]
    · simp only [hk, if_false]
      rw [LinearAlgebra.getD_replicate_self]
      rfl
  have hbody : ∀ (pts : List (Fin D → ℝ)) (i : ℕ),
      List.modify (fun p => p + B.mulVec (fun k : Fin (codimension + 1) =>
          if k.val = 0 then (0 : ℝ)
          else (((List.replicate (L * codimension) (0 : ℝ)).drop
              (i * codimension)).take codimension).getD (k.val - 1) 0))
        (i + 1) pts = pts := by
    intro pts i
    rw [hzero i, Matrix.mulVec_zero]
    exact LinearAlgebra.modify_id_of _ (fun p => add_zero p) pts (i + 1)
  rw [LinearAlgebra.foldl_const _ hbody]
  have hfun : (fun i : ℕ => fun k =>
      start_point k + (i : ℝ) * ((end_point k - start_point k) / ((L : ℝ) + 1))) =
      fun i : ℕ =>
        start_point + (((i : ℕ) : ℝ) / ((L : ℝ) + 1)) • (end_point - start_point) := by
    funext i
    funext k
    simp only [Pi.add_apply, Pi.smul_apply, Pi.sub_apply, smul_eq_mul]
    ring
  exact congrArg (fun f => List.map f (List.range (L + 2))) hfun

/-- Witness for C8 at `D = 1`, `codimension = 0`, `L = 1`. -/
theorem claim_C8_witness :
    ((fun _ => (0 : ℝ)) : Fin 1 → ℝ) ≠ (fun _ => 1)
    ∧ LinearAlgebra.shifts_to_curve (fun _ => (0 : ℝ)) (fun _ => 1)
        (List.replicate (1 * 0) 0) 1 (1 : Matrix (Fin 1) (Fin 1) ℝ)
        (fun _ => 0) =
      (List.range (1 + 2)).map fun i =>
        (fun _ => (0 : ℝ)) + (((i : ℕ) : ℝ) / (((1 : ℕ) : ℝ) + 1)) •
          ((fun _ => 1) - fun _ => (0 : ℝ)) := by
  have hne : ((fun _ => (0 : ℝ)) : Fin 1 → ℝ) ≠ (fun _ => 1) := by
    intro h
    have h0 := congrFun h 0
    norm_num at h0
  exact ⟨hne, claim_C8_zero_shift_is_uniform_interpolation 1 _ _ 1 _ hne⟩

/-- C1 counterexample: a worker given a task (`SERVER_GIVES_NEW_TASK`, code 2)
whose local solve fails (`find_geodesic_midpoint` returns `None` because an
evaluator was unreachable) terminates its main loop having sent *no* KILL
message, although its bound pool `[0, 1]` is nonempty and `shutdown_metric`
would have messaged both evaluators. -/
theorem claim_C1_counterexample :
    SimulationClient.start_client_step (A := ℕ) (V := ℕ) [0, 1] "worker-1"
        (SimulationClient.ClientMsg.no_task "worker-1") ⟨2, 5, 0, 0⟩ none true =
      ⟨[], true, none⟩
    ∧ SimulationClient.shutdown_metric [0, 1] = [(0, some 8), (1, some 8)]
    ∧ ([] : List (ℕ × Option ℕ)) ≠ [(0, some 8), (1, some 8)] := by
  refine ⟨?_, ?_, ?_⟩
  · rfl
  · rfl
  · decide

/-- C1 amended: when the local solve fails (the metric request returns no
result), the worker terminates its main loop immediately *without* sending any
KILL message; the KILL broadcast to every bound evaluator happens only when
the connection to the coordinator itself fails. -/
theorem claim_C1_solve_failure_terminates_without_kill {A V : Type}
    (metric_servers : List A) (client_id : String)
    (prev : SimulationClient.ClientMsg V)
    (resp : SimulationClient.ServerResponse V) (conn_ok : Bool)
    (htask : some resp.status_code = comm_code "SERVER_GIVES_NEW_TASK") :
    SimulationClient.start_client_step metric_servers client_id prev resp none
        conn_ok = ⟨[], true, none⟩
    ∧ (∀ r : V, SimulationClient.start_client_step metric_servers client_id
        prev resp (some r) false =
          ⟨SimulationClient.shutdown_metric metric_servers, true, none⟩)
    ∧ SimulationClient.shutdown_metric metric_servers =
        metric_servers.map (fun ad => (ad, comm_code "KILL")) := by
  refine ⟨?_, ?_, rfl⟩
  · simp [SimulationClient.start_client_step, htask]
  · intro r
    simp [SimulationClient.start_client_step, htask]

/-- Witness for the amended C1 at a concrete pool and task response. -/
theorem claim_C1_witness :
    some 2 = comm_code "SERVER_GIVES_NEW_TASK"
    ∧ (SimulationClient.start_client_step (A := ℕ) (V := ℕ) [0, 1] "w"
          (SimulationClient.ClientMsg.no_task "w")
          (⟨2, 5, 0, 0⟩ : SimulationClient.ServerResponse ℕ) none true =
        ⟨[], true, none⟩
      ∧ (∀ r : ℕ, SimulationClient.start_client_step [0, 1] "w"
          (SimulationClient.ClientMsg.no_task "w")
          (⟨2, 5, 0, 0⟩ : SimulationClient.ServerResponse ℕ) (some r) false =
            ⟨SimulationClient.shutdown_metric [0, 1], true, none⟩)
      ∧ SimulationClient.shutdown_metric [0, 1] =
          [0, 1].map (fun ad => (ad, comm_code "KILL"))) :=
  ⟨rfl, claim_C1_solve_failure_terminates_without_kill [0, 1] "w"
    (SimulationClient.ClientMsg.no_task "w") ⟨2, 5, 0, 0⟩ true rfl⟩

/-- C9 theorem (evaluating the code at the failing input): with the buffered
response of a previous batch (`server_response = VALUES [(5, 0)]`), a FETCH
(`CLIENT_ASKS_FOR_VALUES`, code 6) sends the buffered values but leaves the
buffer unchanged, so a second FETCH with no intervening POINTS batch resends
exactly the previous batch's values instead of finding a cleared buffer. -/
theorem claim_C9_fetch_does_not_clear_buffer :
    SimulationPotential.run_potential_step (α := ℕ) (β := ℕ) id
        (some [(5, 0)]) ⟨6, []⟩ =
      some (some [(5, 0)], some [(5, 0)], false)
    ∧ SimulationPotential.run_potential_step (α := ℕ) (β := ℕ) id
        (some [(5, 0)]) ⟨6, []⟩ ≠ some (none, some [(5, 0)], false) := by
  refine ⟨rfl, ?_⟩
  decide

namespace SimulationServer

theorem getLast?_cons_or {α : Type*} :
    ∀ (l : List α) (a : α), (a :: l).getLast? = l.getLast?.or (some a)
  | [], _ => rfl
  | b :: t, a => by
    rw [List.getLast?_cons_cons, getLast?_cons_or t b]
    cases t.getLast? with
    | none => rfl
    | some y => rfl

theorem scanMonitor_spec (now timeout : ℚ) :
    ∀ (m : Monitor) (init : Option ℕ),
      scanMonitor now timeout m init =
        (m.map (fun kv => (kv.1,
          match kv.2 with
          | some (t, node) =>
              if timeout < now - t then none else some (t, node)
          | none => none)),
          (timedOutNodes now timeout m).getLast?.or init)
  | [], init => by simp [scanMonitor, timedOutNodes]
  | (k, entry) :: rest, init => by
    cases entry with
    | none =>
      simp only [scanMonitor, scanMonitor_spec now timeout rest init,
        timedOutNodes, List.filterMap_cons, List.map_cons]
    | some tn =>
      obtain ⟨t, node⟩ := tn
      by_cases h : timeout < now - t
      · simp only [scanMonitor, if_pos h,
          scanMonitor_spec now timeout rest (some node),
          timedOutNodes, List.filterMap_cons, List.map_cons]
        rw [Prod.mk.injEq]
        refine ⟨rfl, ?_⟩
        rw [getLast?_cons_or]
        cases (List.filterMap (fun kv =>
            match kv.2 with
            | some (t, node) => if timeout < now - t then some node else none
            | none => none) rest).getLast? with
        | none => rfl
        | some y => rfl
      · simp only [scanMonitor, if_neg h,
          scanMonitor_spec now timeout rest init,
          timedOutNodes, List.filterMap_cons, List.map_cons]

theorem dispatch_break_iff {σ V : Type} (ops : CurveOps σ V)
    (tolerance timeout : ℚ) (m1 : Monitor) (c1 : σ) (req : SRequest V)
    (now : ℚ) :
    ((run_simulation_dispatch ops tolerance timeout m1 c1 req now).2.2.2 = true
      ↔ (run_simulation_dispatch ops tolerance timeout m1 c1 req now).2.2.1 =
          none) := by
  unfold run_simulation_dispatch
  by_cases h : ops.all_nodes_moved c1 ∧ ops.movement c1 < tolerance
  · rw [if_pos h]
    simp
  · rw [if_neg h]
    cases hs : (scanMonitor now timeout m1 none).2 with
    | some n => simp [hs]
    | none =>
      cases hn : ops.next_movable_node
          (if ops.all_nodes_moved c1 then ops.set_node_movable c1 else c1) with
      | some n => simp [hs, hn]
      | none => simp [hs, hn]

theorem run_simulation_step_some {σ V : Type} (ops : CurveOps σ V)
    (tolerance timeout : ℚ) (monitor : Monitor) (curve : σ)
    (req : SRequest V) (now : ℚ) (res : Monitor × σ × Option (SReply V) × Bool)
    (h : run_simulation_step ops tolerance timeout monitor curve req now =
      some res) :
    ∃ m1 c1, res = run_simulation_dispatch ops tolerance timeout m1 c1 req now := by
  unfold run_simulation_step at h
  by_cases h1 : some req.status_code = comm_code "CLIENT_HAS_MIDPOINT_DATA"
  · rw [if_pos h1] at h
    cases hlk : mlookup monitor req.client_name with
    | none => rw [hlk] at h; simp at h
    | some e =>
      cases e with
      | none =>
        rw [hlk] at h
        simp only [Option.some.injEq] at h
        exact ⟨monitor, curve, h.symm⟩
      | some p =>
        rw [hlk] at h
        simp only [Option.some.injEq] at h
        exact ⟨monitor, _, h.symm⟩
  · rw [if_neg h1] at h
    by_cases h2 : some req.status_code = comm_code "CLIENT_FIRST_CONTACT"
    · rw [if_pos h2] at h
      simp only [Option.some.injEq] at h
      exact ⟨_, curve, h.symm⟩
    · rw [if_neg h2] at h
      simp only [Option.some.injEq] at h
      exact ⟨monitor, curve, h.symm⟩

end SimulationServer

/-- C2 counterexample: two workers `w1` (node 3) and `w2` (node 5), both
dispatched at time 0, scanned at time 10 with `TIMEOUT = 1`.  Both are demoted
(their records become `None`), but `next_node_number` retains only the
last-scanned worker's node 5; node 3 is neither re-dispatched nor recorded
anywhere — it is lost, contradicting the claim that every timed-out worker's
node is released for re-dispatch. -/
theorem claim_C2_counterexample :
    SimulationServer.scanMonitor 10 1
        [("w1", some (0, 3)), ("w2", some (0, 5))] none =
      ([("w1", none), ("w2", none)], some 5)
    ∧ some 5 ≠ some 3 := by
  refine ⟨?_, by simp⟩
  norm_num [SimulationServer.scanMonitor]

/-- C2 amended: on each scan, every BUSY worker whose dispatch time is more
than TIMEOUT in the past is demoted (its record becomes `None`), but only ONE
node becomes re-dispatchable: `next_node_number` ends as the node of the
*last* timed-out worker in iteration order (or the initial value when none
timed out); the nodes of the other timed-out workers in the same scan are
dropped without being re-dispatched. -/
theorem claim_C2_scan_demotes_all_but_redispatches_only_last
    (now timeout : ℚ) (m : SimulationServer.Monitor) (init : Option ℕ) :
    SimulationServer.scanMonitor now timeout m init =
      (m.map (fun kv => (kv.1,
        match kv.2 with
        | some (t, node) =>
            if timeout < now - t then none else some (t, node)
        | none => none)),
        (SimulationServer.timedOutNodes now timeout m).getLast?.or init) :=
  SimulationServer.scanMonitor_spec now timeout m init

/-- C4 counterexample: a first-contact request arriving when the sweep is
complete and the movement is below tolerance.  The loop `break`s before any
`client.send`: the result carries `reply = none` (the caller's connection is
closed without a response), not the `WAIT` (`request_callback`) reply the
claim requires. -/
theorem claim_C4_counterexample :
    SimulationServer.run_simulation_step SimulationServer.convergedCurveOps
        1 1000 [] () ⟨9, "w1", 0, 0⟩ 0 =
      some ([("w1", none)], (), none, true)
    ∧ (none : Option (SimulationServer.SReply ℕ)) ≠
        some SimulationServer.SReply.request_callback := by
  refine ⟨?_, by simp⟩
  norm_num [SimulationServer.run_simulation_step,
    SimulationServer.run_simulation_dispatch, SimulationServer.mset,
    SimulationServer.convergedCurveOps, comm_code]

/-- C4 amended: whenever a request-handling step terminates the accept loop
(`terminated = true`, which happens exactly on the convergence check), it does
so *without* replying to the current caller, and conversely every
non-terminating step replies; the caller that triggers the convergence check
sees a closed connection, not a WAIT. -/
theorem claim_C4_termination_closes_without_reply {σ V : Type}
    (ops : SimulationServer.CurveOps σ V) (tolerance timeout : ℚ)
    (monitor : SimulationServer.Monitor) (curve : σ)
    (req : SimulationServer.SRequest V) (now : ℚ)
    (m' : SimulationServer.Monitor) (c' : σ)
    (reply : Option (SimulationServer.SReply V)) (terminated : Bool)
    (h : SimulationServer.run_simulation_step ops tolerance timeout monitor
        curve req now = some (m', c', reply, terminated)) :
    terminated = true ↔ reply = none := by
  obtain ⟨m1, c1, hres⟩ := SimulationServer.run_simulation_step_some ops
    tolerance timeout monitor curve req now _ h
  have hiff := SimulationServer.dispatch_break_iff ops tolerance timeout m1 c1
    req now
  rw [← hres] at hiff
  exact hiff

/-- Witness for the amended C4, at the counterexample's concrete input. -/
theorem claim_C4_witness :
    SimulationServer.run_simulation_step SimulationServer.convergedCurveOps
        1 1000 [] () ⟨9, "w1", 0, 0⟩ 0 =
      some ([("w1", none)], (), none, true)
    ∧ (true = true ↔ (none : Option (SimulationServer.SReply ℕ)) = none) := by
  have heval : SimulationServer.run_simulation_step
      SimulationServer.convergedCurveOps 1 1000 [] () ⟨9, "w1", 0, 0⟩ 0 =
      some ([("w1", none)], (), none, true) := by
    norm_num [SimulationServer.run_simulation_step,
      SimulationServer.run_simulation_dispatch, SimulationServer.mset,
      SimulationServer.convergedCurveOps, comm_code]
  exact ⟨heval, claim_C4_termination_closes_without_reply
    SimulationServer.convergedCurveOps 1 1000 [] () ⟨9, "w1", 0, 0⟩ 0
    [("w1", none)] () none true heval⟩

/-- C10: a `CLIENT_HAS_MIDPOINT_DATA` request whose `client_name` was never
registered by a prior `CLIENT_FIRST_CONTACT` makes
`client_monitor[client_name]` raise an uncaught `KeyError` (`none` result),
crashing the coordinator; when the name is present (its HELLO preceded the
RESULT) the handler never crashes. -/
theorem claim_C10_unregistered_result_crashes {σ V : Type}
    (ops : SimulationServer.CurveOps σ V) (tolerance timeout : ℚ)
    (monitor : SimulationServer.Monitor) (curve : σ)
    (req : SimulationServer.SRequest V) (now : ℚ)
    (hmid : some req.status_code = comm_code "CLIENT_HAS_MIDPOINT_DATA") :
    (SimulationServer.mlookup monitor req.client_name = none →
      SimulationServer.run_simulation_step ops tolerance timeout monitor curve
        req now = none)
    ∧ ∀ e, SimulationServer.mlookup monitor req.client_name = some e →
        SimulationServer.run_simulation_step ops tolerance timeout monitor
          curve req now ≠ none := by
  constructor
  · intro hlk
    unfold SimulationServer.run_simulation_step
    rw [if_pos hmid, hlk]
  · intro e hlk
    unfold SimulationServer.run_simulation_step
    rw [if_pos hmid, hlk]
    cases e with
    | none => simp
    | some p => simp

/-- Witness for C10: a midpoint result from the never-registered worker
`"ghost"` on an empty monitor. -/
theorem claim_C10_witness :
    some 1 = comm_code "CLIENT_HAS_MIDPOINT_DATA"
    ∧ ((SimulationServer.mlookup [] "ghost" = none →
        SimulationServer.run_simulation_step
          SimulationServer.convergedCurveOps 1 1000 [] ()
          ⟨1, "ghost", 0, 0⟩ 0 = none)
      ∧ ∀ e, SimulationServer.mlookup [] "ghost" = some e →
          SimulationServer.run_simulation_step
            SimulationServer.convergedCurveOps 1 1000 [] ()
            ⟨1, "ghost", 0, 0⟩ 0 ≠ none) :=
  ⟨rfl, claim_C10_unregistered_result_crashes
    SimulationServer.convergedCurveOps 1 1000 [] () ⟨1, "ghost", 0, 0⟩ 0 rfl⟩

namespace LinearAlgebra

theorem gsGo_length {D : ℕ} :
    ∀ (l acc : List (Fin D → ℝ)), (gsGo acc l).length = acc.length + l.length
  | [], acc => by simp [gsGo]
  | c :: rest, acc => by
    rw [gsGo, gsGo_length rest]
    simp
    omega

theorem gsPrefix_length {D : ℕ} (cols : List (Fin D → ℝ)) :
    ∀ j, (gsPrefix cols j).length = j
  | 0 => rfl
  | j + 1 => by
    rw [gsPrefix, List.length_append, gsPrefix_length cols j]
    rfl

theorem getD_concat_length {α : Type*} :
    ∀ (l : List α) (x d : α), (l ++ [x]).getD l.length d = x
  | [], x, d => rfl
  | a :: t, x, d => by
    simpa using getD_concat_length t x d

theorem gsPrefix_getD {D : ℕ} (cols : List (Fin D → ℝ)) :
    ∀ (m i : ℕ), i < m → (gsPrefix cols m).getD i 0 = gsQ cols i
  | 0, i, h => absurd h (by omega)
  | m + 1, i, h => by
    rcases Nat.lt_or_ge i m with him | him
    · rw [gsPrefix, List.getD_append _ _ _ i (by rw [gsPrefix_length]; omega),
        gsPrefix_getD cols m i him]
    · have him' : i = m := by omega
      subst him'
      rfl

theorem gsQ_eq_step {D : ℕ} (cols : List (Fin D → ℝ)) (j : ℕ) :
    gsQ cols j = gsStep (gsPrefix cols j) (cols.getD j 0) := by
  rw [gsQ, gsPrefix]
  have := getD_concat_length (gsPrefix cols j)
    (gsStep (gsPrefix cols j) (cols.getD j 0)) (0 : Fin D → ℝ)
  rw [gsPrefix_length cols j] at this
  exact this

theorem gsGo_prefix {D : ℕ} (cols : List (Fin D → ℝ)) :
    ∀ (n k : ℕ), cols.length - k = n → k ≤ cols.length →
      gsGo (gsPrefix cols k) (cols.drop k) = gsPrefix cols cols.length
  | 0, k, h, hk => by
    have : k = cols.length := by omega
    subst this
    rw [List.drop_length, gsGo]
  | n + 1, k, h, hk => by
    have hk' : k < cols.length := by omega
    rw [List.drop_eq_getElem_cons hk', gsGo]
    have hstep : gsPrefix cols k ++ [gsStep (gsPrefix cols k) cols[k]] =
        gsPrefix cols (k + 1) := by
      rw [gsPrefix, List.getD_eq_getElem cols 0 hk']
    rw [hstep]
    exact gsGo_prefix cols n (k + 1) (by omega) (by omega)

theorem orthonormal_tangent_basis_eq_prefix {D : ℕ} (tangent : Fin D → ℝ) :
    orthonormal_tangent_basis tangent =
      gsPrefix (orthonormal_tangent_basis_columns tangent)
        (orthonormal_tangent_basis_columns tangent).length := by
  rw [orthonormal_tangent_basis]
  have := gsGo_prefix (orthonormal_tangent_basis_columns tangent)
    (orthonormal_tangent_basis_columns tangent).length 0 (by omega) (by omega)
  simpa [gsPrefix] using this

end LinearAlgebra

/-- C5 counterexample: for `D = 3` and tangent `(0, 1, 0)` (first nonzero
component at index 1), the generated basis has only 2 columns — it is a
`3 × 2` matrix, not the `D × D` matrix the claim asserts: the row-building
loop starts at index 1 and so never includes `e_0`, it only skips `e_j`. -/
theorem claim_C5_counterexample :
    (LinearAlgebra.orthonormal_tangent_basis
        (fun k : Fin 3 => if k.val = 1 then (1 : ℝ) else 0)).length = 2
    ∧ (2 : ℕ) ≠ 3 := by
  refine ⟨?_, by decide⟩
  have hfin : List.finRange 3 = [0, 1, 2] := by decide
  have hfirst : LinearAlgebra.firstNonzero
      (fun k : Fin 3 => if k.val = 1 then (1 : ℝ) else 0) = some 1 := by
    rw [LinearAlgebra.firstNonzero, hfin, LinearAlgebra.firstNonzeroAux,
      if_neg (by norm_num), LinearAlgebra.firstNonzeroAux,
      if_pos (by norm_num)]
  rw [LinearAlgebra.orthonormal_tangent_basis, LinearAlgebra.gsGo_length,
    LinearAlgebra.orthonormal_tangent_basis_columns, hfirst]
  norm_num
  decide

namespace LinearAlgebra

theorem toE_apply {D : ℕ} (v : Fin D → ℝ) (i : Fin D) : toE v i = v i := rfl

theorem inner_toE {D : ℕ} (x y : Fin D → ℝ) :
    (inner (toE x) (toE y) : ℝ) = dotR x y := by
  rw [PiLp.inner_apply]
  simp [RCLike.inner_apply, toE_apply, dotR, starRingEnd_apply]

theorem norm_toE {D : ℕ} (v : Fin D → ℝ) :
    Real.sqrt (dotR v v) = ‖toE v‖ := by
  rw [← inner_toE, real_inner_self_eq_norm_mul_norm]
  exact Real.sqrt_mul_self (norm_nonneg _)

theorem toE_list_sum {D : ℕ} (l : List (Fin D → ℝ)) :
    toE l.sum = (l.map (fun v => toE v)).sum :=
  map_list_sum toE l

theorem proj_term {D : ℕ} (v w : EuclideanSpace ℝ (Fin D)) :
    ((orthogonalProjection ((ℝ : Type) ∙ v) w : EuclideanSpace ℝ (Fin D))) =
      (inner ((‖v‖⁻¹ : ℝ) • v) w : ℝ) • ((‖v‖⁻¹ : ℝ) • v) := by
  by_cases hv : v = 0
  · simp [hv]
  · rw [orthogonalProjection_singleton, real_inner_smul_left, smul_smul]
    congr 1
    simp only [RCLike.ofReal_real_eq_id, id_eq]
    rw [div_eq_mul_inv, pow_two, mul_inv]
    ring

theorem list_map_sum_getD {α M : Type*} [AddCommMonoid M] (g : α → M) (d : α) :
    ∀ (l : List α), (l.map g).sum = ∑ i ∈ Finset.range l.length, g (l.getD i d)
  | [] => by simp
  | a :: t => by
    rw [List.map_cons, List.sum_cons, list_map_sum_getD g d t, List.length_cons,
      Finset.sum_range_succ']
    simp [add_comm]

/-- The code's Gram–Schmidt loop computes exactly Mathlib's
`gramSchmidtNormed` of the column family (coincidence of classical
Gram–Schmidt with projections on the normalized previous columns and
projection onto the span of the unnormalized ones). -/
theorem gsQ_eq_gramSchmidtNormed {D : ℕ} (cols : List (Fin D → ℝ)) :
    ∀ j < cols.length,
      toE (gsQ cols j) =
        gramSchmidtNormed ℝ (fun i : ℕ => toE (cols.getD i 0)) j := by
  intro j
  induction j using Nat.strong_induction_on with
  | _ j ih =>
    intro hj
    have hv : toE (cols.getD j 0 -
        ((gsPrefix cols j).map (fun q => dotR q (cols.getD j 0) • q)).sum) =
        gramSchmidt ℝ (fun i : ℕ => toE (cols.getD i 0)) j := by
      rw [map_sub, toE_list_sum, List.map_map]
      rw [list_map_sum_getD _ (0 : Fin D → ℝ), gsPrefix_length]
      rw [gramSchmidt_def ℝ (fun i : ℕ => toE (cols.getD i 0)) j]
      rw [Nat.Iio_eq_range]
      congr 1
      apply Finset.sum_congr rfl
      intro i hi
      have hij : i < j := Finset.mem_range.mp hi
      rw [gsPrefix_getD cols j i hij]
      simp only [Function.comp_apply]
      rw [map_smul, ← inner_toE, ih i hij (by omega), proj_term]
      simp only [gramSchmidtNormed, RCLike.ofReal_real_eq_id, id_eq]
    rw [gsQ_eq_step]
    simp only [gsStep]
    rw [map_smul, norm_toE, hv]
    simp only [gramSchmidtNormed, RCLike.ofReal_real_eq_id, id_eq]

theorem gramSchmidt_cols_ne_zero {D : ℕ} (cols : List (Fin D → ℝ)) (n : ℕ)
    (_hn : cols.length = n)
    (hli : LinearIndependent ℝ (fun i : Fin n => toE (cols.getD i.val 0))) :
    ∀ i < n, gramSchmidt ℝ (fun k : ℕ => toE (cols.getD k 0)) i ≠ 0 := by
  intro i hi
  apply gramSchmidt_ne_zero_coe i
  exact hli.comp
    (fun x : Set.Iic i => (⟨x.1, by
      have hx := Set.mem_Iic.mp x.2
      omega⟩ : Fin n))
    (fun a b h => Subtype.ext (congrArg Fin.val h))

theorem gsQ_orthonormal {D : ℕ} (cols : List (Fin D → ℝ)) (n : ℕ)
    (hn : cols.length = n)
    (hli : LinearIndependent ℝ (fun i : Fin n => toE (cols.getD i.val 0))) :
    ∀ i < n, ∀ k < n,
      dotR (gsQ cols i) (gsQ cols k) = if i = k then 1 else 0 := by
  intro i hi k hk
  have hgz := gramSchmidt_cols_ne_zero cols n hn hli
  rw [← inner_toE, gsQ_eq_gramSchmidtNormed cols i (by omega),
    gsQ_eq_gramSchmidtNormed cols k (by omega)]
  by_cases hik : i = k
  · subst hik
    rw [if_pos rfl, real_inner_self_eq_norm_mul_norm]
    have hne : gramSchmidtNormed ℝ (fun j : ℕ => toE (cols.getD j 0)) i ≠ 0 := by
      simp only [gramSchmidtNormed, RCLike.ofReal_real_eq_id, id_eq]
      exact smul_ne_zero
        (inv_ne_zero (norm_ne_zero_iff.mpr (hgz i hi))) (hgz i hi)
    rw [gramSchmidtNormed_unit_length' hne]
    norm_num
  · rw [if_neg hik]
    simp only [gramSchmidtNormed, RCLike.ofReal_real_eq_id, id_eq]
    rw [real_inner_smul_left, real_inner_smul_right,
      gramSchmidt_orthogonal ℝ _ hik]
    ring

theorem tangent_cols_getD_succ {d : ℕ} (t : Fin (d + 1) → ℝ) (m : ℕ)
    (hm : m < d) :
    (t :: (List.range' 1 d).map (stdBasis (d + 1))).getD (m + 1) 0 =
      stdBasis (d + 1) (1 + m) := by
  rw [List.getD_cons_succ,
    List.getD_eq_getElem _ _ (by simpa using hm),
    List.getElem_map, List.getElem_range']
  norm_num

theorem tangent_cols_li {d : ℕ} (t : Fin (d + 1) → ℝ) (h0 : t 0 ≠ 0) :
    LinearIndependent ℝ (fun i : Fin (d + 1) =>
      toE ((t :: (List.range' 1 d).map (stdBasis (d + 1))).getD i.val 0)) := by
  rw [Fintype.linearIndependent_iff]
  intro g hsum
  set cols := t :: (List.range' 1 d).map (stdBasis (d + 1)) with hcols
  have hsum' : ∑ i : Fin (d + 1), g i • (cols.getD i.val 0) = 0 := by
    apply toE.injective
    rw [map_sum, map_zero]
    simpa only [map_smul] using hsum
  have hcoord : ∀ k : Fin (d + 1),
      ∑ i : Fin (d + 1), g i * (cols.getD i.val 0) k = 0 := by
    intro k
    have h := congrFun hsum' k
    rw [Finset.sum_apply] at h
    simpa [Pi.smul_apply] using h
  have hg0 : g 0 = 0 := by
    have h := hcoord 0
    rw [Fin.sum_univ_succ] at h
    have htail : ∀ i : Fin d, g i.succ * (cols.getD (i.succ).val 0) 0 = 0 := by
      intro i
      rw [show ((i.succ : Fin (d + 1)).val) = i.val + 1 from rfl,
        tangent_cols_getD_succ t i.val i.isLt]
      rw [stdBasis]
      rw [if_neg (by simp; omega)]
      ring
    rw [Finset.sum_eq_zero (fun i _ => htail i), add_zero] at h
    have ht : (cols.getD ((0 : Fin (d + 1)).val) 0) 0 = t 0 := rfl
    rw [ht] at h
    rcases mul_eq_zero.mp h with h' | h'
    · exact h'
    · exact absurd h' h0
  intro i
  refine Fin.cases hg0 ?_ i
  intro m
  have h := hcoord m.succ
  rw [Fin.sum_univ_succ] at h
  have htail : ∀ i : Fin d, g i.succ * (cols.getD (i.succ).val 0) m.succ =
      if i = m then g i.succ else 0 := by
    intro i
    rw [show ((i.succ : Fin (d + 1)).val) = i.val + 1 from rfl,
      tangent_cols_getD_succ t i.val i.isLt]
    rw [stdBasis]
    by_cases him : i = m
    · subst him
      rw [if_pos (by simp [Fin.val_succ]; omega), if_pos rfl, mul_one]
    · rw [if_neg ?_, if_neg him, mul_zero]
      simp only [Fin.val_succ]
      intro hc
      exact him (Fin.ext (by omega))
  rw [Finset.sum_congr rfl (fun i _ => htail i), Finset.sum_ite_eq'] at h
  simp only [Finset.mem_univ, if_true, hg0, zero_mul, zero_add] at h
  exact h

theorem columns_of_first_entry_nonzero {d : ℕ} (t : Fin (d + 1) → ℝ)
    (h0 : t 0 ≠ 0) :
    orthonormal_tangent_basis_columns t =
      t :: (List.range' 1 d).map (stdBasis (d + 1)) := by
  have hfirst : firstNonzero t = some 0 := by
    rw [firstNonzero, List.finRange_succ, firstNonzeroAux, if_pos h0]
  rw [orthonormal_tangent_basis_columns, hfirst]
  show t :: (((List.range (d + 1)).drop 1).filter
      (fun i => i ≠ (0 : Fin (d + 1)).val)).map (stdBasis (d + 1)) = _
  have hdrop : (List.range (d + 1)).drop 1 = List.range' 1 d := by
    rw [List.range_eq_range', List.range'_succ]
    rfl
  rw [hdrop]
  have hfilter : (List.range' 1 d).filter (fun i => i ≠ (0 : Fin (d + 1)).val) =
      List.range' 1 d := by
    apply List.filter_eq_self.mpr
    intro x hx
    have hx' := List.mem_range'_1.mp hx
    simp only [Fin.val_zero, decide_eq_true_eq]
    omega
  rw [hfilter]

theorem normalize_smul_pos {D : ℕ} (c : ℝ) (hc : 0 < c) (x : Fin D → ℝ) :
    (Real.sqrt (dotR (c • x) (c • x)))⁻¹ • (c • x) =
      (Real.sqrt (dotR x x))⁻¹ • x := by
  have h1 : dotR (c • x) (c • x) = c ^ 2 * dotR x x := by
    rw [dotR, dotR, Finset.mul_sum]
    apply Finset.sum_congr rfl
    intro i _
    simp only [Pi.smul_apply, smul_eq_mul]
    ring
  rw [h1, Real.sqrt_mul (sq_nonneg c), Real.sqrt_sq hc.le, mul_inv, smul_smul]
  congr 1
  rcases eq_or_ne (Real.sqrt (dotR x x)) 0 with hs | hs
  · rw [hs]
    simp
  · field_simp

/-- Full specification of `orthonormal_tangent_basis` on tangents whose first
entry is nonzero: `D` columns, pairwise-orthonormal in the `np.inner` dot
product, first column the normalized tangent. -/
theorem orthonormal_tangent_basis_spec {d : ℕ} (t : Fin (d + 1) → ℝ)
    (h0 : t 0 ≠ 0) :
    (orthonormal_tangent_basis t).length = d + 1
    ∧ (∀ i k : Fin (d + 1),
        dotR ((orthonormal_tangent_basis t).getD i.val 0)
          ((orthonormal_tangent_basis t).getD k.val 0) =
        if i = k then 1 else 0)
    ∧ (orthonormal_tangent_basis t).getD 0 0 =
        (Real.sqrt (dotR t t))⁻¹ • t := by
  have hcols := columns_of_first_entry_nonzero t h0
  have hlen : (orthonormal_tangent_basis_columns t).length = d + 1 := by
    rw [hcols]
    simp
  have hpre := orthonormal_tangent_basis_eq_prefix t
  have hgetQ : ∀ i : ℕ, i < d + 1 →
      (orthonormal_tangent_basis t).getD i 0 =
        gsQ (orthonormal_tangent_basis_columns t) i := by
    intro i hi
    rw [hpre, gsPrefix_getD _ _ i (by omega)]
  have hli' : LinearIndependent ℝ (fun i : Fin (d + 1) =>
      toE ((orthonormal_tangent_basis_columns t).getD i.val 0)) := by
    rw [hcols]
    exact tangent_cols_li t h0
  have hdot := gsQ_orthonormal (orthonormal_tangent_basis_columns t) (d + 1)
    hlen hli'
  refine ⟨?_, ?_, ?_⟩
  · rw [hpre, gsPrefix_length, hlen]
  · intro i k
    rw [hgetQ i.val i.isLt, hgetQ k.val k.isLt,
      hdot i.val i.isLt k.val k.isLt]
    by_cases hik : i = k
    · simp [hik]
    · rw [if_neg hik, if_neg (fun hc => hik (Fin.ext hc))]
  · rw [hgetQ 0 (by omega), gsQ_eq_step]
    rw [show gsPrefix (orthonormal_tangent_basis_columns t) 0 = [] from rfl]
    rw [show (orthonormal_tangent_basis_columns t).getD 0 0 = t by
      rw [hcols]
      rfl]
    simp only [gsStep, List.map_nil, List.sum_nil, sub_zero]

end LinearAlgebra

/-- C5 amended: for a task whose tangent `(right − left)/(L+1)` has nonzero
*first* component (so the source's `j` is 0), the generated basis is a `D × D`
matrix `B` with `Bᵀ B = I` exactly (hence to within `1e-10`) and first column
the unit tangent `(right − left)/‖right − left‖`.  (When the first nonzero
component has index ≥ 1, the matrix has only `D − 1` columns — the
counterexample.) -/
theorem claim_C5_orthonormal_basis_first_entry_nonzero {d : ℕ} (L : ℕ)
    (left right : Fin (d + 1) → ℝ) (h0 : right 0 - left 0 ≠ 0) :
    (LinearAlgebra.orthonormal_tangent_basis
        (fun k => (1 / ((L : ℝ) + 1)) * (right k - left k))).length = d + 1
    ∧ (LinearAlgebra.colsMatrix (d + 1) (d + 1)
        (LinearAlgebra.orthonormal_tangent_basis
          (fun k => (1 / ((L : ℝ) + 1)) * (right k - left k)))).transpose *
        LinearAlgebra.colsMatrix (d + 1) (d + 1)
          (LinearAlgebra.orthonormal_tangent_basis
            (fun k => (1 / ((L : ℝ) + 1)) * (right k - left k))) = 1
    ∧ (LinearAlgebra.orthonormal_tangent_basis
        (fun k => (1 / ((L : ℝ) + 1)) * (right k - left k))).getD 0 0 =
        (Real.sqrt (dotR (fun k => right k - left k)
            (fun k => right k - left k)))⁻¹ • (fun k => right k - left k) := by
  have hc : (0 : ℝ) < 1 / ((L : ℝ) + 1) := by positivity
  have ht0 : (fun k => (1 / ((L : ℝ) + 1)) * (right k - left k))
      (0 : Fin (d + 1)) ≠ 0 := mul_ne_zero hc.ne' h0
  obtain ⟨hlen, hdot, hfirst⟩ := LinearAlgebra.orthonormal_tangent_basis_spec
    (fun k => (1 / ((L : ℝ) + 1)) * (right k - left k)) ht0
  refine ⟨hlen, ?_, ?_⟩
  · ext i k
    rw [Matrix.mul_apply, Matrix.one_apply]
    simp only [Matrix.transpose_apply, LinearAlgebra.colsMatrix,
      Matrix.of_apply]
    have hsum : ∑ j, ((LinearAlgebra.orthonormal_tangent_basis
          (fun k => (1 / ((L : ℝ) + 1)) * (right k - left k))).getD i.val 0) j *
        ((LinearAlgebra.orthonormal_tangent_basis
          (fun k => (1 / ((L : ℝ) + 1)) * (right k - left k))).getD k.val 0) j =
        dotR ((LinearAlgebra.orthonormal_tangent_basis
          (fun k => (1 / ((L : ℝ) + 1)) * (right k - left k))).getD i.val 0)
          ((LinearAlgebra.orthonormal_tangent_basis
            (fun k => (1 / ((L : ℝ) + 1)) * (right k - left k))).getD k.val 0) :=
      rfl
    rw [hsum, hdot i k]
  · rw [hfirst]
    have hsm : (fun k => (1 / ((L : ℝ) + 1)) * (right k - left k)) =
        (1 / ((L : ℝ) + 1)) • (fun k => right k - left k) := rfl
    rw [hsm, LinearAlgebra.normalize_smul_pos _ hc _]

/-- Witness for the amended C5 at `D = 1`, `L = 0`, endpoints `0` and `1`. -/
theorem claim_C5_witness :
    ((fun _ => (1 : ℝ)) : Fin 1 → ℝ) 0 - ((fun _ => (0 : ℝ)) : Fin 1 → ℝ) 0 ≠ 0
    ∧ ((LinearAlgebra.orthonormal_tangent_basis
        (fun k : Fin 1 => (1 / (((0 : ℕ) : ℝ) + 1)) *
          ((fun _ => (1 : ℝ)) k - (fun _ => (0 : ℝ)) k))).length = 0 + 1
    ∧ (LinearAlgebra.colsMatrix (0 + 1) (0 + 1)
        (LinearAlgebra.orthonormal_tangent_basis
          (fun k : Fin 1 => (1 / (((0 : ℕ) : ℝ) + 1)) *
            ((fun _ => (1 : ℝ)) k - (fun _ => (0 : ℝ)) k)))).transpose *
        LinearAlgebra.colsMatrix (0 + 1) (0 + 1)
          (LinearAlgebra.orthonormal_tangent_basis
            (fun k : Fin 1 => (1 / (((0 : ℕ) : ℝ) + 1)) *
              ((fun _ => (1 : ℝ)) k - (fun _ => (0 : ℝ)) k))) = 1
    ∧ (LinearAlgebra.orthonormal_tangent_basis
        (fun k : Fin 1 => (1 / (((0 : ℕ) : ℝ) + 1)) *
          ((fun _ => (1 : ℝ)) k - (fun _ => (0 : ℝ)) k))).getD 0 0 =
        (Real.sqrt (dotR
            (fun k : Fin 1 => (fun _ => (1 : ℝ)) k - (fun _ => (0 : ℝ)) k)
            (fun k : Fin 1 => (fun _ => (1 : ℝ)) k - (fun _ => (0 : ℝ)) k)))⁻¹ •
          (fun k : Fin 1 => (fun _ => (1 : ℝ)) k - (fun _ => (0 : ℝ)) k)) := by
  have h0 : ((fun _ => (1 : ℝ)) : Fin 1 → ℝ) 0 -
      ((fun _ => (0 : ℝ)) : Fin 1 → ℝ) 0 ≠ 0 := by norm_num
  exact ⟨h0, claim_C5_orthonormal_basis_first_entry_nonzero 0
    (fun _ => (0 : ℝ)) (fun _ => (1 : ℝ)) h0⟩
